import Mathlib

/-!
Shallow embedding of the matrix-multiplication kernels of
`src/rust/src/lib.rs` (crate exposing `rust_mm_optimized`,
`rust_mm_blocked`, `rust_mm_auto` over a C ABI).

Modelling choices:
* `c_double` values are modelled as `ℚ` (exact arithmetic); the flat
  buffers `a`, `b`, `c` are total functions `ℕ → ℚ` (the pointer plus
  its index arithmetic, with no length attached, matching
  `slice::from_raw_parts`).
* The `c_int` dimensions are modelled as `ℤ`; the Rust `as usize` cast
  (sign-extension of a 32-bit value reinterpreted as a 64-bit unsigned
  integer, i.e. wrapping modulo 2^64) is `c_int_to_usize`.
* `ArrayView2::from_shape((k, m), a_slice).unwrap().t()` reads, in
  row-major interpretation of the `(k, m)` shape followed by a
  transpose, element `(i, l)` at flat offset `i + l * m`; this offset
  arithmetic is `aIdx` (and `bIdx`, `cIdx` for the other two buffers).
* Each kernel builds an internal `Array2::zeros((m, n))` result matrix,
  modelled as a function `ℕ → ℕ → ℚ` built by folding the source's
  loops as point updates (`update2`), and finally copies it into the
  caller's buffer with the column-major write-back loop (`writeBack`).
* The `rayon` row-parallelism of `rust_mm_optimized` writes disjoint
  rows of the internal matrix with no cross-row communication, so its
  deterministic result is the sequential row-by-row fold used here.
* A call is the whole memory-visible effect: `MMState` carries the
  three buffers; the kernels mutate only the `c` component (the source
  takes `a_ptr`, `b_ptr` as `*const` and never stores through them).
-/

namespace MatrixProd

/-- The `m as usize` cast applied by all three entry points to each
`c_int` dimension: sign-extend to 64 bits and reinterpret, i.e. reduce
modulo 2^64 into `[0, 2^64)`. -/
def c_int_to_usize (x : ℤ) : ℕ := (x % 2 ^ 64).toNat

/-- Flat offset of logical element `(i, l)` of matrix A (`m × k`,
column-major buffer): the source's `a[[i, l]]` resolves, through
`from_shape((k, m), ..).t()`, to `a_slice[i + l * m]`. -/
def aIdx (m i l : ℕ) : ℕ := i + l * m

/-- Flat offset of logical element `(l, j)` of matrix B (`k × n`,
column-major buffer): `b[[l, j]]` resolves to `b_slice[l + j * k]`. -/
def bIdx (k l j : ℕ) : ℕ := l + j * k

/-- Flat offset used by the write-back loop: `c_slice[i + j * m]`. -/
def cIdx (m i j : ℕ) : ℕ := i + j * m

/-- Point update of the internal result matrix: `c[[i, j]] = v`. -/
def update2 (c : ℕ → ℕ → ℚ) (i j : ℕ) (v : ℚ) : ℕ → ℕ → ℚ :=
  fun i' j' => if i' = i ∧ j' = j then v else c i' j'

/-- Internal result matrix of `rust_mm_optimized`: starts as
`Array2::zeros((m, n))`; row `i` (a rayon work item) sets, for each
`j in 0..n`, `row[j]` to the accumulator of
`for l in 0..k { sum += a[[i, l]] * b[[l, j]] }` started at `0.0`. -/
def directMat (a b : ℕ → ℚ) (m k n : ℕ) : ℕ → ℕ → ℚ :=
  (List.range m).foldl (fun c i =>
    (List.range n).foldl (fun c j =>
      update2 c i j
        ((List.range k).foldl (fun s l => s + a (aIdx m i l) * b (bIdx k l j)) 0)) c)
    (fun _ _ => 0)

/-- The write-back loop shared by both kernels:
`for i in 0..m { for j in 0..n { c_slice[i + j*m] = c[[i, j]]; } }`. -/
def writeBack (m n : ℕ) (res : ℕ → ℕ → ℚ) (c : ℕ → ℚ) : ℕ → ℚ :=
  (List.range m).foldl (fun c i =>
    (List.range n).foldl (fun c j =>
      Function.update c (cIdx m i j) (res i j)) c) c

/-- `const BLOCK_SIZE: usize = 64;` of `rust_mm_blocked`. -/
def BLOCK_SIZE : ℕ := 64

/-- The tile starts produced by `(0..dim).step_by(BLOCK_SIZE)`:
`0, 64, 128, ...` while below `dim`, i.e. `⌈dim / 64⌉` values. -/
def blockStarts (dim : ℕ) : List ℕ :=
  List.range' 0 ((dim + BLOCK_SIZE - 1) / BLOCK_SIZE) BLOCK_SIZE

/-- Tile upper bound `std::cmp::min(block + BLOCK_SIZE, dim)`. -/
def tileEnd (s dim : ℕ) : ℕ := min (s + BLOCK_SIZE) dim

/-- The innermost accumulator of `rust_mm_blocked`:
`for l in k_block..k_end { sum += a[[i, l]] * b[[l, j]] }` from `0.0`,
with `k_end = min(k_block + BLOCK_SIZE, k)`. -/
def kTileSum (a b : ℕ → ℚ) (m k i j kB : ℕ) : ℚ :=
  (List.range' kB (tileEnd kB k - kB)).foldl
    (fun s l => s + a (aIdx m i l) * b (bIdx k l j)) 0

/-- Internal result matrix of `rust_mm_blocked`: starts as
`Array2::zeros((m, n))`; tiles iterate in the nesting order
`i_block` (rows), `j_block` (columns), `k_block` (depth), each clipped
by `min(block + BLOCK_SIZE, dim)`; for each `(i, j)` in the row/column
tile the depth-tile partial sum is added: `c[[i, j]] += sum`. -/
def blockedMat (a b : ℕ → ℚ) (m k n : ℕ) : ℕ → ℕ → ℚ :=
  (blockStarts m).foldl (fun c iB =>
    (blockStarts n).foldl (fun c jB =>
      (blockStarts k).foldl (fun c kB =>
        (List.range' iB (tileEnd iB m - iB)).foldl (fun c i =>
          (List.range' jB (tileEnd jB n - jB)).foldl (fun c j =>
            update2 c i j (c i j + kTileSum a b m k i j kB)) c) c) c) c)
    (fun _ _ => 0)

/-- The memory visible across the C boundary of one call: the three
flat buffers. The dimensions are passed separately per call. -/
structure MMState where
  a : ℕ → ℚ
  b : ℕ → ℚ
  c : ℕ → ℚ

/-- `rust_mm_optimized(a_ptr, b_ptr, c_ptr, m, k, n)`: cast the three
`c_int` dimensions with `as usize`, form the transposed logical views
of `a` and `b`, compute the internal result matrix row-parallel, and
copy it into `c_slice` column-major. Only `c` is written. -/
def rust_mm_optimized (s : MMState) (m k n : ℤ) : MMState :=
  let m' := c_int_to_usize m
  let k' := c_int_to_usize k
  let n' := c_int_to_usize n
  { s with c := writeBack m' n' (directMat s.a s.b m' k' n') s.c }

/-- `rust_mm_blocked(a_ptr, b_ptr, c_ptr, m, k, n)`: same boundary
handling, blocked internal computation with `BLOCK_SIZE = 64`. -/
def rust_mm_blocked (s : MMState) (m k n : ℤ) : MMState :=
  let m' := c_int_to_usize m
  let k' := c_int_to_usize k
  let n' := c_int_to_usize n
  { s with c := writeBack m' n' (blockedMat s.a s.b m' k' n') s.c }

/-- `rust_mm_auto`: `if m <= 512 && k <= 512 && n <= 512` (on the raw
`c_int` values) delegate to `rust_mm_optimized`, else to
`rust_mm_blocked`, forwarding all arguments unchanged. -/
def rust_mm_auto (s : MMState) (m k n : ℤ) : MMState :=
  if m ≤ 512 ∧ k ≤ 512 ∧ n ≤ 512 then
    rust_mm_optimized s m k n
  else
    rust_mm_blocked s m k n

/-- A is the `n × n` identity matrix, stored column-major. -/
def isIdentity (a : ℕ → ℚ) (n : ℕ) : Prop :=
  ∀ i l, i < n → l < n → a (aIdx n i l) = if i = l then 1 else 0

/-- The Blocked Kernel algorithm as the spec words it (§4.3): tile edge
length 64; output initialized to 0 before any tile work; tiles iterated
in the nesting order row-tile, column-tile, depth-tile, each clipped to
the boundary by `min`; for each `(i, j)` inside the row/column tile the
depth-tile partial sum `Σ_{l in depth tile} A[i,l]*B[l,j]` is added into
`C[i,j]` rather than overwriting it. Stated for comparison with the
source-derived `blockedMat`. -/
def specBlockedMat (a b : ℕ → ℚ) (m k n : ℕ) : ℕ → ℕ → ℚ :=
  ((List.range ((m + 63) / 64)).map (· * 64)).foldl (fun c iB =>
    ((List.range ((n + 63) / 64)).map (· * 64)).foldl (fun c jB =>
      ((List.range ((k + 63) / 64)).map (· * 64)).foldl (fun c kB =>
        (List.range' iB (min (iB + 64) m - iB)).foldl (fun c i =>
          (List.range' jB (min (jB + 64) n - jB)).foldl (fun c j =>
            update2 c i j (c i j +
              ∑ l ∈ Finset.Ico kB (min (kB + 64) k), a (i + l * m) * b (l + j * k))) c) c) c) c)
    (fun _ _ => 0)

/-- Concrete 2×2 input A = [[1,2],[3,4]] in column-major layout, used to
instantiate the theorems on a closed input. -/
def aEx : ℕ → ℚ := fun idx => [(1 : ℚ), 3, 2, 4].getD idx 0

/-- Concrete 2×2 input B = [[5,6],[7,8]] in column-major layout. -/
def bEx : ℕ → ℚ := fun idx => [(5 : ℚ), 7, 6, 8].getD idx 0

/-- A concrete call state with a sentinel-filled output buffer. -/
def sEx : MMState := ⟨aEx, bEx, fun _ => 99⟩

/-- The same inputs with a different initial output buffer. -/
def sEx0 : MMState := ⟨aEx, bEx, fun _ => 0⟩

/-- The 2×2 identity matrix in column-major layout. -/
def idEx : ℕ → ℚ := fun idx => if idx = 0 ∨ idx = 3 then 1 else 0

/-- A call state whose A factor is the 2×2 identity. -/
def sId : MMState := ⟨idEx, bEx, fun _ => 99⟩

/-! ### Fold and sum bookkeeping -/

lemma update2_hit (c : ℕ → ℕ → ℚ) (i j : ℕ) (v : ℚ) : update2 c i j v i j = v := by
  simp [update2]

lemma update2_miss (c : ℕ → ℕ → ℚ) (i j : ℕ) (v : ℚ) {i' j' : ℕ}
    (h : ¬(i' = i ∧ j' = j)) : update2 c i j v i' j' = c i' j' := by
  simp only [update2, if_neg h]

lemma foldl_add_eq (g : ℕ → ℚ) : ∀ (L : List ℕ) (c : ℚ),
    L.foldl (fun s l => s + g l) c = c + (L.map g).sum
  | [], c => by simp
  | x :: L, c => by
    rw [List.foldl_cons, foldl_add_eq g L, List.map_cons, List.sum_cons, add_assoc]

lemma sum_map_range' (g : ℕ → ℚ) : ∀ (cnt lo : ℕ),
    ((List.range' lo cnt).map g).sum = ∑ l ∈ Finset.Ico lo (lo + cnt), g l
  | 0, lo => by simp
  | cnt + 1, lo => by
    rw [List.range'_succ, List.map_cons, List.sum_cons,
      Finset.sum_eq_sum_Ico_succ_bot (by omega), sum_map_range' g cnt (lo + 1),
      show lo + 1 + cnt = lo + (cnt + 1) from by omega]

lemma range'_foldl_sum (g : ℕ → ℚ) (lo cnt : ℕ) :
    (List.range' lo cnt).foldl (fun s l => s + g l) 0 =
      ∑ l ∈ Finset.Ico lo (lo + cnt), g l := by
  rw [foldl_add_eq, sum_map_range', zero_add]

lemma Ico_clip (a e : ℕ) : Finset.Ico a (a + (e - a)) = Finset.Ico a e := by
  rcases le_total a e with h | h
  · rw [Nat.add_sub_cancel' h]
  · rw [Nat.sub_eq_zero_of_le h, Nat.add_zero, Finset.Ico_self,
      Finset.Ico_eq_empty (by omega)]

lemma range_foldl_sum (g : ℕ → ℚ) (k : ℕ) :
    (List.range k).foldl (fun s l => s + g l) 0 = ∑ l ∈ Finset.range k, g l := by
  rw [List.range_eq_range', range'_foldl_sum, Finset.range_eq_Ico, Nat.zero_add]

lemma kTileSum_eq_sum (a b : ℕ → ℚ) (m k i j kB : ℕ) :
    kTileSum a b m k i j kB =
      ∑ l ∈ Finset.Ico kB (tileEnd kB k), a (aIdx m i l) * b (bIdx k l j) := by
  rw [kTileSum, range'_foldl_sum, Ico_clip]

lemma tileEnd_eq (s dim : ℕ) : tileEnd s dim = min (s + 64) dim := rfl

lemma range'_step_eq_map (step : ℕ) : ∀ (n a : ℕ),
    List.range' a n step = (List.range n).map (fun t => a + t * step)
  | 0, a => by simp
  | n + 1, a => by
    rw [List.range'_succ, range'_step_eq_map step n (a + step),
      List.range_succ_eq_map, List.map_cons, List.map_map]
    refine congrArg₂ _ (by omega) (List.map_congr_left fun t _ => ?_)
    simp [Function.comp]
    ring

lemma blockStarts_eq_map (dim : ℕ) :
    blockStarts dim = (List.range ((dim + 63) / 64)).map (· * 64) := by
  rw [blockStarts, BLOCK_SIZE, range'_step_eq_map]
  exact List.map_congr_left fun t _ => by omega

/-! ### Write-back loop characterization -/

lemma cIdx_inj {m i1 j1 i2 j2 : ℕ} (h1 : i1 < m) (h2 : i2 < m)
    (h : cIdx m i1 j1 = cIdx m i2 j2) : i1 = i2 ∧ j1 = j2 := by
  unfold cIdx at h
  have hj : j1 * m = j2 * m → j1 = j2 := fun hh =>
    Nat.eq_of_mul_eq_mul_right (by omega) hh
  have e1 : (i1 + j1 * m) % m = i1 := by
    rw [Nat.add_mul_mod_self_right, Nat.mod_eq_of_lt h1]
  have e2 : (i2 + j2 * m) % m = i2 := by
    rw [Nat.add_mul_mod_self_right, Nat.mod_eq_of_lt h2]
  have hi : i1 = i2 := by rw [← e1, ← e2, h]
  exact ⟨hi, hj (by omega)⟩

lemma cIdx_cover {m n idx : ℕ} (h : idx < m * n) :
    ∃ i j, i < m ∧ j < n ∧ idx = cIdx m i j := by
  have hm : 0 < m := by
    rcases Nat.eq_zero_or_pos m with h0 | h0
    · subst h0; omega
    · exact h0
  refine ⟨idx % m, idx / m, Nat.mod_lt _ hm, Nat.div_lt_of_lt_mul ?_, ?_⟩
  · omega
  · rw [cIdx, Nat.mod_add_div']

lemma writeRow_miss (m n i : ℕ) (res : ℕ → ℕ → ℚ) {idx : ℕ}
    (h : ∀ j, j < n → idx ≠ cIdx m i j) :
    ∀ (c : ℕ → ℚ),
      ((List.range n).foldl (fun c j => Function.update c (cIdx m i j) (res i j)) c) idx
        = c idx := by
  induction n with
  | zero => intro c; simp
  | succ n ih =>
    intro c
    rw [List.range_succ, List.foldl_append, List.foldl_cons, List.foldl_nil,
      Function.update_noteq (h n (by omega))]
    exact ih (fun j hj => h j (by omega)) c

lemma writeRow_hit (m n i : ℕ) (res : ℕ → ℕ → ℚ) (hm : 0 < m) {j : ℕ} (hj : j < n) :
    ∀ (c : ℕ → ℚ),
      ((List.range n).foldl (fun c j => Function.update c (cIdx m i j) (res i j)) c)
        (cIdx m i j) = res i j := by
  induction n with
  | zero => omega
  | succ n ih =>
    intro c
    rw [List.range_succ, List.foldl_append, List.foldl_cons, List.foldl_nil]
    by_cases hjn : j = n
    · subst hjn; rw [Function.update_same]
    · have hne : cIdx m i j ≠ cIdx m i n := by
        unfold cIdx
        intro hc
        exact hjn (Nat.eq_of_mul_eq_mul_right hm (by omega : j * m = n * m))
      rw [Function.update_noteq hne]
      exact ih (by omega) c

lemma writeRows_miss (m n : ℕ) (res : ℕ → ℕ → ℚ) {idx : ℕ} :
    ∀ (L : List ℕ) (c : ℕ → ℚ), (∀ i ∈ L, ∀ j, j < n → idx ≠ cIdx m i j) →
      (L.foldl (fun c i =>
        (List.range n).foldl (fun c j => Function.update c (cIdx m i j) (res i j)) c) c) idx
        = c idx
  | [], c, _ => rfl
  | i :: L, c, h => by
    rw [List.foldl_cons,
      writeRows_miss m n res L _ (fun i' hi' => h i' (List.mem_cons_of_mem _ hi'))]
    exact writeRow_miss m n i res (h i (List.mem_cons_self _ _)) c

lemma writeBack_miss (m n : ℕ) (res : ℕ → ℕ → ℚ) (c : ℕ → ℚ) {idx : ℕ}
    (h : ∀ i j, i < m → j < n → idx ≠ cIdx m i j) :
    writeBack m n res c idx = c idx := by
  unfold writeBack
  exact writeRows_miss m n res _ c fun i hi j hj =>
    h i j (List.mem_range.mp hi) hj

lemma writeBack_hit (m n : ℕ) (res : ℕ → ℕ → ℚ) (c : ℕ → ℚ) {i j : ℕ}
    (hi : i < m) (hj : j < n) :
    writeBack m n res c (cIdx m i j) = res i j := by
  unfold writeBack
  have h1 := List.range'_append 0 i (m - i) 1
  rw [show 0 + 1 * i = i from by omega, show m - i + i = m from by omega] at h1
  obtain ⟨d, hd⟩ : ∃ d, m - i = d + 1 := ⟨m - i - 1, by omega⟩
  have hsplit : List.range m = List.range' 0 i ++ i :: List.range' (i + 1) d := by
    rw [List.range_eq_range', ← h1, hd, List.range'_succ]
  rw [hsplit, List.foldl_append, List.foldl_cons]
  rw [writeRows_miss m n res _ _ ?hmiss]
  case hmiss =>
    intro i' hi' j' hj'
    have hgt : ∃ t, t < d ∧ i' = i + 1 + 1 * t := List.mem_range'.mp hi'
    intro hc
    have := cIdx_inj hi (by omega : i' < m) hc
    omega
  exact writeRow_hit m n i res (by omega) hj _

/-! ### Direct kernel characterization -/

lemma setRow_eval (n i : ℕ) (v : ℕ → ℕ → ℚ) (i' j' : ℕ) :
    ∀ (c : ℕ → ℕ → ℚ),
      ((List.range n).foldl (fun c j => update2 c i j (v i j)) c) i' j' =
        if i' = i ∧ j' < n then v i' j' else c i' j' := by
  induction n with
  | zero => intro c; simp
  | succ n ih =>
    intro c
    rw [List.range_succ, List.foldl_append, List.foldl_cons, List.foldl_nil]
    by_cases h : i' = i ∧ j' = n
    · obtain ⟨h1, h2⟩ := h
      subst h1; subst h2
      rw [update2_hit, if_pos ⟨rfl, by omega⟩]
    · rw [update2_miss _ _ _ _ h, ih c]
      by_cases h1 : i' = i ∧ j' < n
      · rw [if_pos h1, if_pos ⟨h1.1, by omega⟩]
      · rw [if_neg h1, if_neg (by
          intro h2
          exact h1 ⟨h2.1, by
            rcases Nat.lt_succ_iff_lt_or_eq.mp h2.2 with h3 | h3
            · exact h3
            · exact absurd ⟨h2.1, h3⟩ h⟩)]

lemma setRows_eval (n : ℕ) (v : ℕ → ℕ → ℚ) :
    ∀ (L : List ℕ) (c : ℕ → ℕ → ℚ) (i' j' : ℕ),
      (L.foldl (fun c i => (List.range n).foldl (fun c j => update2 c i j (v i j)) c) c) i' j'
        = if i' ∈ L ∧ j' < n then v i' j' else c i' j'
  | [], c, i', j' => by simp
  | i :: L, c, i', j' => by
    rw [List.foldl_cons, setRows_eval n v L _ i' j', setRow_eval n i v i' j' c]
    by_cases h1 : i' ∈ L ∧ j' < n
    · rw [if_pos h1, if_pos ⟨List.mem_cons_of_mem _ h1.1, h1.2⟩]
    · rw [if_neg h1]
      by_cases h2 : i' = i ∧ j' < n
      · rw [if_pos h2, if_pos ⟨h2.1 ▸ List.mem_cons_self _ _, h2.2⟩]
      · rw [if_neg h2, if_neg (by
          intro h3
          rcases List.mem_cons.mp h3.1 with h4 | h4
          · exact h2 ⟨h4, h3.2⟩
          · exact h1 ⟨h4, h3.2⟩)]

lemma directMat_eval (a b : ℕ → ℚ) (m k n : ℕ) (i j : ℕ) :
    directMat a b m k n i j =
      if i < m ∧ j < n then
        (List.range k).foldl (fun s l => s + a (aIdx m i l) * b (bIdx k l j)) 0
      else 0 := by
  rw [directMat, setRows_eval n
    (fun i j => (List.range k).foldl (fun s l => s + a (aIdx m i l) * b (bIdx k l j)) 0)
    (List.range m)]
  by_cases h : i < m ∧ j < n
  · rw [if_pos ⟨List.mem_range.mpr h.1, h.2⟩, if_pos h]
  · rw [if_neg (fun h2 => h ⟨List.mem_range.mp h2.1, h2.2⟩), if_neg h]

lemma directMat_spec (a b : ℕ → ℚ) (m k n : ℕ) {i j : ℕ} (hi : i < m) (hj : j < n) :
    directMat a b m k n i j =
      ∑ l ∈ Finset.range k, a (aIdx m i l) * b (bIdx k l j) := by
  rw [directMat_eval, if_pos ⟨hi, hj⟩,
    range_foldl_sum (fun l => a (aIdx m i l) * b (bIdx k l j))]

/-! ### Blocked kernel characterization -/

lemma accRow_eval (a b : ℕ → ℚ) (m k kB i : ℕ) :
    ∀ (cnt jB : ℕ) (c : ℕ → ℕ → ℚ) (i' j' : ℕ),
      ((List.range' jB cnt).foldl (fun c j =>
        update2 c i j (c i j + kTileSum a b m k i j kB)) c) i' j' =
        if i' = i ∧ jB ≤ j' ∧ j' < jB + cnt then c i' j' + kTileSum a b m k i' j' kB
        else c i' j'
  | 0, jB, c, i', j' => by
    rw [show List.range' jB 0 = [] from rfl, List.foldl_nil, if_neg (by omega)]
  | cnt + 1, jB, c, i', j' => by
    rw [List.range'_succ, List.foldl_cons,
      accRow_eval a b m k kB i cnt (jB + 1) _ i' j']
    by_cases h1 : i' = i ∧ jB + 1 ≤ j' ∧ j' < jB + 1 + cnt
    · rw [if_pos h1, update2_miss _ _ _ _ (by intro h2; omega),
        if_pos ⟨h1.1, by omega, by omega⟩]
    · rw [if_neg h1]
      by_cases h2 : i' = i ∧ j' = jB
      · obtain ⟨ha, hb⟩ := h2
        subst ha; subst hb
        rw [update2_hit, if_pos ⟨rfl, le_refl _, by omega⟩]
      · rw [update2_miss _ _ _ _ h2, if_neg (by
          intro h3
          rcases Nat.eq_or_lt_of_le h3.2.1 with h4 | h4
          · exact h2 ⟨h3.1, h4.symm⟩
          · exact h1 ⟨h3.1, h4, by omega⟩)]

lemma accTile_eval (a b : ℕ → ℚ) (m k kB : ℕ) (jB jcnt : ℕ) :
    ∀ (icnt iB : ℕ) (c : ℕ → ℕ → ℚ) (i' j' : ℕ),
      ((List.range' iB icnt).foldl (fun c i =>
        (List.range' jB jcnt).foldl (fun c j =>
          update2 c i j (c i j + kTileSum a b m k i j kB)) c) c) i' j' =
        if iB ≤ i' ∧ i' < iB + icnt ∧ jB ≤ j' ∧ j' < jB + jcnt then
          c i' j' + kTileSum a b m k i' j' kB
        else c i' j'
  | 0, iB, c, i', j' => by
    rw [show List.range' iB 0 = [] from rfl, List.foldl_nil, if_neg (by omega)]
  | icnt + 1, iB, c, i', j' => by
    rw [List.range'_succ, List.foldl_cons,
      accTile_eval a b m k kB jB jcnt icnt (iB + 1) _ i' j']
    simp only [accRow_eval a b m k kB iB jcnt jB c i' j']
    by_cases hout : iB + 1 ≤ i' ∧ i' < iB + 1 + icnt ∧ jB ≤ j' ∧ j' < jB + jcnt
    · rw [if_pos hout, if_neg (by intro h2; omega),
        if_pos ⟨by omega, by omega, hout.2.2.1, hout.2.2.2⟩]
    · rw [if_neg hout]
      by_cases hrow : i' = iB ∧ jB ≤ j' ∧ j' < jB + jcnt
      · rw [if_pos hrow, if_pos ⟨by omega, by omega, hrow.2.1, hrow.2.2⟩]
      · rw [if_neg hrow, if_neg (by
          intro h3
          rcases Nat.eq_or_lt_of_le h3.1 with h4 | h4
          · exact hrow ⟨h4.symm, h3.2.2.1, h3.2.2.2⟩
          · exact hout ⟨h4, by omega, h3.2.2.1, h3.2.2.2⟩)]

lemma kPasses_eval (a b : ℕ → ℚ) (m k n : ℕ) (iB jB : ℕ) :
    ∀ (L : List ℕ) (c : ℕ → ℕ → ℚ) (i' j' : ℕ),
      (L.foldl (fun c kB =>
        (List.range' iB (tileEnd iB m - iB)).foldl (fun c i =>
          (List.range' jB (tileEnd jB n - jB)).foldl (fun c j =>
            update2 c i j (c i j + kTileSum a b m k i j kB)) c) c) c) i' j' =
        if iB ≤ i' ∧ i' < tileEnd iB m ∧ jB ≤ j' ∧ j' < tileEnd jB n then
          c i' j' + (L.map (fun kB => kTileSum a b m k i' j' kB)).sum
        else c i' j'
  | [], c, i', j' => by
    rw [List.foldl_nil, List.map_nil, List.sum_nil]
    by_cases h : iB ≤ i' ∧ i' < tileEnd iB m ∧ jB ≤ j' ∧ j' < tileEnd jB n
    · rw [if_pos h, add_zero]
    · rw [if_neg h]
  | kB :: L, c, i', j' => by
    rw [List.foldl_cons, kPasses_eval a b m k n iB jB L _ i' j']
    simp only [accTile_eval a b m k kB jB (tileEnd jB n - jB) (tileEnd iB m - iB) iB c]
    have he1 : iB + (tileEnd iB m - iB) = max iB (tileEnd iB m) := by omega
    have he2 : jB + (tileEnd jB n - jB) = max jB (tileEnd jB n) := by omega
    by_cases h : iB ≤ i' ∧ i' < tileEnd iB m ∧ jB ≤ j' ∧ j' < tileEnd jB n
    · rw [if_pos h, if_pos (by omega), List.map_cons, List.sum_cons, add_assoc,
        if_pos h]
    · rw [if_neg h, if_neg (by omega), if_neg h]

lemma colTiles_eval (a b : ℕ → ℚ) (m k n iB : ℕ) :
    ∀ (tn : ℕ) (c : ℕ → ℕ → ℚ) (i' j' : ℕ),
      (((List.range tn).map (· * 64)).foldl (fun c jB =>
        (blockStarts k).foldl (fun c kB =>
          (List.range' iB (tileEnd iB m - iB)).foldl (fun c i =>
            (List.range' jB (tileEnd jB n - jB)).foldl (fun c j =>
              update2 c i j (c i j + kTileSum a b m k i j kB)) c) c) c) c) i' j' =
        if iB ≤ i' ∧ i' < tileEnd iB m ∧ j' < min (tn * 64) n then
          c i' j' + ((blockStarts k).map (fun kB => kTileSum a b m k i' j' kB)).sum
        else c i' j'
  | 0, c, i', j' => by
    rw [List.range_zero, List.map_nil, List.foldl_nil, if_neg (by omega)]
  | tn + 1, c, i', j' => by
    rw [List.range_succ, List.map_append, List.foldl_append]
    simp only [List.map_cons, List.map_nil, List.foldl_cons, List.foldl_nil]
    rw [kPasses_eval a b m k n iB (tn * 64) (blockStarts k) _ i' j',
      colTiles_eval a b m k n iB tn c i' j']
    have htE : tileEnd (tn * 64) n = min (tn * 64 + 64) n := tileEnd_eq _ _
    by_cases hrow : iB ≤ i' ∧ i' < tileEnd iB m
    · by_cases hnew : tn * 64 ≤ j' ∧ j' < tileEnd (tn * 64) n
      · rw [if_pos ⟨hrow.1, hrow.2, hnew.1, hnew.2⟩, if_neg (by omega),
          if_pos ⟨hrow.1, hrow.2, by omega⟩]
      · rw [if_neg (by intro h3; exact hnew ⟨h3.2.2.1, h3.2.2.2⟩)]
        by_cases hold : j' < min (tn * 64) n
        · rw [if_pos ⟨hrow.1, hrow.2, hold⟩, if_pos ⟨hrow.1, hrow.2, by omega⟩]
        · rw [if_neg (by omega), if_neg (by omega)]
    · rw [if_neg (by intro h3; exact hrow ⟨h3.1, h3.2.1⟩),
        if_neg (by intro h3; exact hrow ⟨h3.1, h3.2.1⟩),
        if_neg (by intro h3; exact hrow ⟨h3.1, h3.2.1⟩)]

lemma colTiles_full (a b : ℕ → ℚ) (m k n iB : ℕ) (c : ℕ → ℕ → ℚ) (i' j' : ℕ) :
    ((blockStarts n).foldl (fun c jB =>
      (blockStarts k).foldl (fun c kB =>
        (List.range' iB (tileEnd iB m - iB)).foldl (fun c i =>
          (List.range' jB (tileEnd jB n - jB)).foldl (fun c j =>
            update2 c i j (c i j + kTileSum a b m k i j kB)) c) c) c) c) i' j' =
      if iB ≤ i' ∧ i' < tileEnd iB m ∧ j' < n then
        c i' j' + ((blockStarts k).map (fun kB => kTileSum a b m k i' j' kB)).sum
      else c i' j' := by
  have hb : blockStarts n = (List.range ((n + 63) / 64)).map (· * 64) :=
    blockStarts_eq_map n
  rw [hb, colTiles_eval a b m k n iB ((n + 63) / 64) c i' j',
    show min (((n + 63) / 64) * 64) n = n from by omega]

lemma rowTiles_eval (a b : ℕ → ℚ) (m k n : ℕ) :
    ∀ (tm : ℕ) (c : ℕ → ℕ → ℚ) (i' j' : ℕ),
      (((List.range tm).map (· * 64)).foldl (fun c iB =>
        (blockStarts n).foldl (fun c jB =>
          (blockStarts k).foldl (fun c kB =>
            (List.range' iB (tileEnd iB m - iB)).foldl (fun c i =>
              (List.range' jB (tileEnd jB n - jB)).foldl (fun c j =>
                update2 c i j (c i j + kTileSum a b m k i j kB)) c) c) c) c) c) i' j' =
        if i' < min (tm * 64) m ∧ j' < n then
          c i' j' + ((blockStarts k).map (fun kB => kTileSum a b m k i' j' kB)).sum
        else c i' j'
  | 0, c, i', j' => by
    rw [List.range_zero, List.map_nil, List.foldl_nil, if_neg (by omega)]
  | tm + 1, c, i', j' => by
    rw [List.range_succ, List.map_append, List.foldl_append]
    simp only [List.map_cons, List.map_nil, List.foldl_cons, List.foldl_nil]
    rw [colTiles_full a b m k n (tm * 64) _ i' j',
      rowTiles_eval a b m k n tm c i' j']
    have htE : tileEnd (tm * 64) m = min (tm * 64 + 64) m := tileEnd_eq _ _
    by_cases hcol : j' < n
    · by_cases hnew : tm * 64 ≤ i' ∧ i' < tileEnd (tm * 64) m
      · rw [if_pos ⟨hnew.1, hnew.2, hcol⟩, if_neg (by omega),
          if_pos ⟨by omega, hcol⟩]
      · rw [if_neg (by intro h3; exact hnew ⟨h3.1, h3.2.1⟩)]
        by_cases hold : i' < min (tm * 64) m
        · rw [if_pos ⟨hold, hcol⟩, if_pos ⟨by omega, hcol⟩]
        · rw [if_neg (by omega), if_neg (by omega)]
    · rw [if_neg (by intro h3; exact hcol h3.2.2),
        if_neg (by intro h3; exact hcol h3.2),
        if_neg (by intro h3; exact hcol h3.2)]

lemma blockedMat_eval (a b : ℕ → ℚ) (m k n : ℕ) (i j : ℕ) :
    blockedMat a b m k n i j =
      if i < m ∧ j < n then
        ((blockStarts k).map (fun kB => kTileSum a b m k i j kB)).sum
      else 0 := by
  unfold blockedMat
  have hb : blockStarts m = (List.range ((m + 63) / 64)).map (· * 64) :=
    blockStarts_eq_map m
  rw [hb, rowTiles_eval a b m k n ((m + 63) / 64) _ i j,
    show min (((m + 63) / 64) * 64) m = m from by omega]
  by_cases h : i < m ∧ j < n
  · rw [if_pos h, if_pos h, zero_add]
  · rw [if_neg h, if_neg h]

lemma tileSum_partition (g : ℕ → ℚ) (k : ℕ) :
    ∀ (t : ℕ), (((List.range t).map (· * 64)).map
        (fun kB => ∑ l ∈ Finset.Ico kB (tileEnd kB k), g l)).sum =
      ∑ l ∈ Finset.Ico 0 (min (t * 64) k), g l
  | 0 => by simp
  | t + 1 => by
    rw [List.range_succ, List.map_append, List.map_append, List.sum_append,
      tileSum_partition g k t]
    simp only [List.map_cons, List.map_nil, List.sum_cons, List.sum_nil, add_zero]
    rw [tileEnd_eq]
    by_cases h : t * 64 ≤ k
    · rw [show min (t * 64) k = t * 64 from by omega,
        Finset.sum_Ico_consecutive g (Nat.zero_le _)
          (by omega : t * 64 ≤ min (t * 64 + 64) k),
        show min (t * 64 + 64) k = min ((t + 1) * 64) k from by omega]
    · rw [show min (t * 64) k = k from by omega,
        show Finset.Ico (t * 64) (min (t * 64 + 64) k) = ∅ from
          Finset.Ico_eq_empty (by omega),
        Finset.sum_empty, add_zero,
        show min ((t + 1) * 64) k = k from by omega]

lemma blockSum_full (a b : ℕ → ℚ) (m k i j : ℕ) :
    ((blockStarts k).map (fun kB => kTileSum a b m k i j kB)).sum =
      ∑ l ∈ Finset.range k, a (aIdx m i l) * b (bIdx k l j) := by
  rw [blockStarts_eq_map,
    List.map_congr_left (fun kB _ => kTileSum_eq_sum a b m k i j kB),
    tileSum_partition (fun l => a (aIdx m i l) * b (bIdx k l j)) k ((k + 63) / 64),
    show min (((k + 63) / 64) * 64) k = k from by omega, Finset.range_eq_Ico]

lemma blockedMat_spec (a b : ℕ → ℚ) (m k n : ℕ) {i j : ℕ} (hi : i < m) (hj : j < n) :
    blockedMat a b m k n i j =
      ∑ l ∈ Finset.range k, a (aIdx m i l) * b (bIdx k l j) := by
  rw [blockedMat_eval, if_pos ⟨hi, hj⟩, blockSum_full]

/-! ### Entry-point level lemmas -/

lemma rust_mm_optimized_c (s : MMState) (m k n : ℤ) :
    (rust_mm_optimized s m k n).c =
      writeBack (c_int_to_usize m) (c_int_to_usize n)
        (directMat s.a s.b (c_int_to_usize m) (c_int_to_usize k) (c_int_to_usize n))
        s.c := rfl

lemma rust_mm_blocked_c (s : MMState) (m k n : ℤ) :
    (rust_mm_blocked s m k n).c =
      writeBack (c_int_to_usize m) (c_int_to_usize n)
        (blockedMat s.a s.b (c_int_to_usize m) (c_int_to_usize k) (c_int_to_usize n))
        s.c := rfl

lemma c_int_to_usize_natCast (x : ℕ) (h : x < 2 ^ 64) :
    c_int_to_usize (x : ℤ) = x := by
  unfold c_int_to_usize
  omega

/-! ### Claim theorems -/

/-- C1: for dimensions `m, k, n ≥ 0` (within the `c_int` range) and
column-major buffers, both `rust_mm_optimized` and `rust_mm_blocked`
leave `c` holding the matrix product: `c[i + j*m]` is
`Σ_{l<k} a[i + l*m] * b[l + j*k]`, the two kernels applying the same
transposed-view index mapping `aIdx`/`bIdx`/`cIdx`. -/
theorem direct_and_blocked_compute_product (s : MMState) (m k n : ℕ)
    (hm : m < 2 ^ 31) (hk : k < 2 ^ 31) (hn : n < 2 ^ 31)
    (i j : ℕ) (hi : i < m) (hj : j < n) :
    (rust_mm_optimized s m k n).c (cIdx m i j) =
      ∑ l ∈ Finset.range k, s.a (aIdx m i l) * s.b (bIdx k l j) ∧
    (rust_mm_blocked s m k n).c (cIdx m i j) =
      ∑ l ∈ Finset.range k, s.a (aIdx m i l) * s.b (bIdx k l j) := by
  have em : c_int_to_usize (m : ℤ) = m := c_int_to_usize_natCast m (by omega)
  have ek : c_int_to_usize (k : ℤ) = k := c_int_to_usize_natCast k (by omega)
  have en : c_int_to_usize (n : ℤ) = n := c_int_to_usize_natCast n (by omega)
  constructor
  · rw [rust_mm_optimized_c, em, ek, en, writeBack_hit _ _ _ _ hi hj,
      directMat_spec s.a s.b m k n hi hj]
  · rw [rust_mm_blocked_c, em, ek, en, writeBack_hit _ _ _ _ hi hj,
      blockedMat_spec s.a s.b m k n hi hj]

/-- C2: `rust_mm_auto` equals `rust_mm_optimized` exactly when
`m ≤ 512 ∧ k ≤ 512 ∧ n ≤ 512`, and equals `rust_mm_blocked` exactly
when any dimension exceeds 512; it forwards all arguments unchanged
and computes nothing itself. -/
theorem auto_dispatches_on_512_threshold (s : MMState) (m k n : ℤ) :
    (m ≤ 512 ∧ k ≤ 512 ∧ n ≤ 512 →
      rust_mm_auto s m k n = rust_mm_optimized s m k n) ∧
    (512 < m ∨ 512 < k ∨ 512 < n →
      rust_mm_auto s m k n = rust_mm_blocked s m k n) := by
  constructor
  · intro h
    unfold rust_mm_auto
    rw [if_pos h]
  · intro h
    unfold rust_mm_auto
    rw [if_neg (by omega)]

/-- C3: on the same state and dimensions the Direct and Blocked kernels
produce element-for-element equal output buffers under exact
arithmetic. -/
theorem direct_blocked_agree_exact (s : MMState) (m k n : ℤ)
    (hm : 0 ≤ m) (hk : 0 ≤ k) (hn : 0 ≤ n) :
    (rust_mm_optimized s m k n).c = (rust_mm_blocked s m k n).c := by
  funext idx
  rw [rust_mm_optimized_c, rust_mm_blocked_c]
  by_cases h : ∃ i j, i < c_int_to_usize m ∧ j < c_int_to_usize n ∧
      idx = cIdx (c_int_to_usize m) i j
  · obtain ⟨i, j, hi, hj, hidx⟩ := h
    subst hidx
    rw [writeBack_hit _ _ _ _ hi hj, writeBack_hit _ _ _ _ hi hj,
      directMat_spec _ _ _ _ _ hi hj, blockedMat_spec _ _ _ _ _ hi hj]
  · push_neg at h
    rw [writeBack_miss _ _ _ _ h, writeBack_miss _ _ _ _ h]

/-- C4: the Blocked Kernel's internal result matrix is exactly the
spec's algorithm: zero-initialized, tiles of edge 64 iterated row-tile,
column-tile, depth-tile, clipped by `min`, with the depth-tile partial
sum added into (not overwriting) each cell. -/
theorem blocked_matches_spec_algorithm (a b : ℕ → ℚ) (m k n : ℕ) :
    blockedMat a b m k n = specBlockedMat a b m k n := by
  unfold blockedMat specBlockedMat
  simp only [blockStarts_eq_map, kTileSum_eq_sum, tileEnd_eq, aIdx, bIdx]

/-- C5: each output cell of the Direct Kernel is the straight
sequential left fold of `+` over the products `a[i,l] * b[l,j]` in
increasing `l` order starting from `0`. -/
theorem direct_cell_is_sequential_fold (s : MMState) (m k n : ℕ)
    (hm : m < 2 ^ 31) (hk : k < 2 ^ 31) (hn : n < 2 ^ 31)
    (i j : ℕ) (hi : i < m) (hj : j < n) :
    (rust_mm_optimized s m k n).c (cIdx m i j) =
      ((List.range k).map (fun l => s.a (aIdx m i l) * s.b (bIdx k l j))).foldl
        (· + ·) 0 := by
  have em : c_int_to_usize (m : ℤ) = m := c_int_to_usize_natCast m (by omega)
  have ek : c_int_to_usize (k : ℤ) = k := c_int_to_usize_natCast k (by omega)
  have en : c_int_to_usize (n : ℤ) = n := c_int_to_usize_natCast n (by omega)
  rw [rust_mm_optimized_c, em, ek, en, writeBack_hit _ _ _ _ hi hj,
    directMat_eval, if_pos ⟨hi, hj⟩, List.foldl_map]

lemma foldl_keep : ∀ (L : List ℕ) (c : ℕ → ℚ), L.foldl (fun c _ => c) c = c
  | [], _ => rfl
  | x :: L, c => by
    rw [List.foldl_cons]
    exact foldl_keep L c

lemma writeBack_m_zero (n : ℕ) (res : ℕ → ℕ → ℚ) (c : ℕ → ℚ) :
    writeBack 0 n res c = c := by
  unfold writeBack
  rw [List.range_zero, List.foldl_nil]

lemma writeBack_n_zero (m : ℕ) (res : ℕ → ℕ → ℚ) (c : ℕ → ℚ) :
    writeBack m 0 res c = c := by
  unfold writeBack
  simp only [List.range_zero, List.foldl_nil]
  exact foldl_keep (List.range m) c

/-- C6: zero-dimension handling with no special-case branch: `k = 0`
writes `0.0` into every one of the `m*n` output cells; `m = 0` or
`n = 0` completes without touching the output buffer at all, for all
three entry points. -/
theorem zero_dimension_handling (s : MMState) (m k n : ℕ)
    (hm : m < 2 ^ 31) (hk : k < 2 ^ 31) (hn : n < 2 ^ 31) :
    (k = 0 → ∀ idx, idx < m * n →
      (rust_mm_optimized s m k n).c idx = 0 ∧
      (rust_mm_blocked s m k n).c idx = 0 ∧
      (rust_mm_auto s m k n).c idx = 0) ∧
    (m = 0 ∨ n = 0 →
      (rust_mm_optimized s m k n).c = s.c ∧
      (rust_mm_blocked s m k n).c = s.c ∧
      (rust_mm_auto s m k n).c = s.c) := by
  have em : c_int_to_usize (m : ℤ) = m := c_int_to_usize_natCast m (by omega)
  have ek : c_int_to_usize (k : ℤ) = k := c_int_to_usize_natCast k (by omega)
  have en : c_int_to_usize (n : ℤ) = n := c_int_to_usize_natCast n (by omega)
  have hauto : (rust_mm_auto s m k n).c = (rust_mm_optimized s m k n).c ∨
      (rust_mm_auto s m k n).c = (rust_mm_blocked s m k n).c := by
    unfold rust_mm_auto
    by_cases h : (m : ℤ) ≤ 512 ∧ (k : ℤ) ≤ 512 ∧ (n : ℤ) ≤ 512
    · left; rw [if_pos h]
    · right; rw [if_neg h]
  constructor
  · intro hkz idx hidx
    obtain ⟨i, j, hi, hj, hc⟩ := cIdx_cover hidx
    subst hc
    have hopt : (rust_mm_optimized s m k n).c (cIdx m i j) = 0 := by
      rw [rust_mm_optimized_c, em, ek, en, writeBack_hit _ _ _ _ hi hj,
        directMat_spec s.a s.b m k n hi hj, hkz, Finset.range_zero,
        Finset.sum_empty]
    have hblk : (rust_mm_blocked s m k n).c (cIdx m i j) = 0 := by
      rw [rust_mm_blocked_c, em, ek, en, writeBack_hit _ _ _ _ hi hj,
        blockedMat_spec s.a s.b m k n hi hj, hkz, Finset.range_zero,
        Finset.sum_empty]
    refine ⟨hopt, hblk, ?_⟩
    rcases hauto with h | h
    · rw [h]; exact hopt
    · rw [h]; exact hblk
  · intro hz
    have hopt : (rust_mm_optimized s m k n).c = s.c := by
      rw [rust_mm_optimized_c, em, ek, en]
      rcases hz with hz | hz
      · subst hz; exact writeBack_m_zero _ _ _
      · subst hz; exact writeBack_n_zero _ _ _
    have hblk : (rust_mm_blocked s m k n).c = s.c := by
      rw [rust_mm_blocked_c, em, ek, en]
      rcases hz with hz | hz
      · subst hz; exact writeBack_m_zero _ _ _
      · subst hz; exact writeBack_n_zero _ _ _
    refine ⟨hopt, hblk, ?_⟩
    rcases hauto with h | h
    · rw [h]; exact hopt
    · rw [h]; exact hblk

/-- C7: the kernels fully overwrite the output: every index below
`m*n` has a unique writing cell `(i, j)`, and the final contents do not
depend on the prior contents of `c` (same `a`, `b`, dimensions, any two
initial `c` buffers give identical outputs) for all three entry
points. -/
theorem output_overwritten_independent_of_prior (s1 s2 : MMState) (m k n : ℕ)
    (hm : m < 2 ^ 31) (hk : k < 2 ^ 31) (hn : n < 2 ^ 31)
    (ha : s1.a = s2.a) (hb : s1.b = s2.b)
    (idx : ℕ) (hidx : idx < m * n) :
    (rust_mm_optimized s1 m k n).c idx = (rust_mm_optimized s2 m k n).c idx ∧
    (rust_mm_blocked s1 m k n).c idx = (rust_mm_blocked s2 m k n).c idx ∧
    (rust_mm_auto s1 m k n).c idx = (rust_mm_auto s2 m k n).c idx ∧
    (∃! p : ℕ × ℕ, p.1 < m ∧ p.2 < n ∧ idx = cIdx m p.1 p.2) := by
  have em : c_int_to_usize (m : ℤ) = m := c_int_to_usize_natCast m (by omega)
  have ek : c_int_to_usize (k : ℤ) = k := c_int_to_usize_natCast k (by omega)
  have en : c_int_to_usize (n : ℤ) = n := c_int_to_usize_natCast n (by omega)
  obtain ⟨i, j, hi, hj, hc⟩ := cIdx_cover hidx
  subst hc
  have hopt : (rust_mm_optimized s1 m k n).c (cIdx m i j) =
      (rust_mm_optimized s2 m k n).c (cIdx m i j) := by
    rw [rust_mm_optimized_c, rust_mm_optimized_c, em, ek, en,
      writeBack_hit _ _ _ _ hi hj, writeBack_hit _ _ _ _ hi hj, ha, hb]
  have hblk : (rust_mm_blocked s1 m k n).c (cIdx m i j) =
      (rust_mm_blocked s2 m k n).c (cIdx m i j) := by
    rw [rust_mm_blocked_c, rust_mm_blocked_c, em, ek, en,
      writeBack_hit _ _ _ _ hi hj, writeBack_hit _ _ _ _ hi hj, ha, hb]
  refine ⟨hopt, hblk, ?_, ?_⟩
  · unfold rust_mm_auto
    by_cases h : (m : ℤ) ≤ 512 ∧ (k : ℤ) ≤ 512 ∧ (n : ℤ) ≤ 512
    · rw [if_pos h, if_pos h]; exact hopt
    · rw [if_neg h, if_neg h]; exact hblk
  · refine ⟨(i, j), ⟨hi, hj, rfl⟩, ?_⟩
    rintro ⟨i', j'⟩ ⟨hi', hj', he⟩
    obtain ⟨h1, h2⟩ := cIdx_inj hi hi' he
    exact Prod.ext h1.symm h2.symm

/-- C8: with A the `n × n` identity matrix, every entry point returns
exactly the B buffer (exact arithmetic), for any `n`, hence on both
sides of the 512 dispatch threshold. -/
theorem identity_left_factor_returns_b (s : MMState) (n : ℕ) (hn : n < 2 ^ 31)
    (hid : isIdentity s.a n) (idx : ℕ) (hidx : idx < n * n) :
    (rust_mm_optimized s n n n).c idx = s.b idx ∧
    (rust_mm_blocked s n n n).c idx = s.b idx ∧
    (rust_mm_auto s n n n).c idx = s.b idx := by
  have en : c_int_to_usize (n : ℤ) = n := c_int_to_usize_natCast n (by omega)
  obtain ⟨i, j, hi, hj, hc⟩ := cIdx_cover hidx
  subst hc
  have hsum : ∑ l ∈ Finset.range n, s.a (aIdx n i l) * s.b (bIdx n l j) =
      s.b (cIdx n i j) := by
    have h1 : ∀ l ∈ Finset.range n, s.a (aIdx n i l) * s.b (bIdx n l j) =
        if i = l then s.b (bIdx n l j) else 0 := by
      intro l hl
      rw [hid i l hi (Finset.mem_range.mp hl)]
      by_cases h : i = l
      · rw [if_pos h, if_pos h, one_mul]
      · rw [if_neg h, if_neg h, zero_mul]
    rw [Finset.sum_congr rfl h1,
      Finset.sum_ite_eq (Finset.range n) i (fun l => s.b (bIdx n l j)),
      if_pos (Finset.mem_range.mpr hi)]
    rfl
  have hopt : (rust_mm_optimized s n n n).c (cIdx n i j) = s.b (cIdx n i j) := by
    rw [rust_mm_optimized_c, en, writeBack_hit _ _ _ _ hi hj,
      directMat_spec s.a s.b n n n hi hj, hsum]
  have hblk : (rust_mm_blocked s n n n).c (cIdx n i j) = s.b (cIdx n i j) := by
    rw [rust_mm_blocked_c, en, writeBack_hit _ _ _ _ hi hj,
      blockedMat_spec s.a s.b n n n hi hj, hsum]
  refine ⟨hopt, hblk, ?_⟩
  unfold rust_mm_auto
  by_cases h : (n : ℤ) ≤ 512 ∧ (n : ℤ) ≤ 512 ∧ (n : ℤ) ≤ 512
  · rw [if_pos h]; exact hopt
  · rw [if_neg h]; exact hblk

/-- C9: none of the three entry points writes to the input buffers
`a` or `b`; after any call their contents are unchanged. -/
theorem inputs_never_written (s : MMState) (m k n : ℤ) :
    (rust_mm_optimized s m k n).a = s.a ∧ (rust_mm_optimized s m k n).b = s.b ∧
    (rust_mm_blocked s m k n).a = s.a ∧ (rust_mm_blocked s m k n).b = s.b ∧
    (rust_mm_auto s m k n).a = s.a ∧ (rust_mm_auto s m k n).b = s.b := by
  refine ⟨rfl, rfl, rfl, rfl, ?_, ?_⟩ <;>
    (unfold rust_mm_auto; split_ifs <;> rfl)

/-- C10: the `as usize` cast is the identity on the non-negative
`c_int` range, every buffer offset the kernels form stays inside the
stated buffer lengths, and a negative dimension wraps to a value of at
least `2^63` instead of acting as a zero-size no-op. -/
theorem cast_and_index_bounds :
    (∀ x : ℤ, 0 ≤ x → x < 2 ^ 31 → (c_int_to_usize x : ℤ) = x) ∧
    (∀ m i l k : ℕ, i < m → l < k → aIdx m i l < m * k) ∧
    (∀ k l j n : ℕ, l < k → j < n → bIdx k l j < k * n) ∧
    (∀ m i j n : ℕ, i < m → j < n → cIdx m i j < m * n) ∧
    (∀ x : ℤ, -2 ^ 31 ≤ x → x < 0 → 2 ^ 63 ≤ c_int_to_usize x) := by
  refine ⟨?_, ?_, ?_, ?_, ?_⟩
  · intro x h1 h2
    unfold c_int_to_usize
    omega
  · intro m i l k hi hl
    unfold aIdx
    have h1 : l * m + m = (l + 1) * m := by ring
    have h2 : (l + 1) * m ≤ k * m := Nat.mul_le_mul_right m (by omega)
    have h3 : k * m = m * k := by ring
    omega
  · intro k l j n hl hj
    unfold bIdx
    have h1 : j * k + k = (j + 1) * k := by ring
    have h2 : (j + 1) * k ≤ n * k := Nat.mul_le_mul_right k (by omega)
    have h3 : n * k = k * n := by ring
    omega
  · intro m i j n hi hj
    unfold cIdx
    have h1 : j * m + m = (j + 1) * m := by ring
    have h2 : (j + 1) * m ≤ n * m := Nat.mul_le_mul_right m (by omega)
    have h3 : n * m = m * n := by ring
    omega
  · intro x h1 h2
    unfold c_int_to_usize
    omega

lemma sId_isIdentity : isIdentity sId.a 2 := by
  intro i l hi hl
  interval_cases i <;> interval_cases l <;> decide

/-! ### Concrete instantiations of the claim theorems -/

/-- C1 instantiated at m = k = n = 2, cell (1, 1). -/
theorem direct_and_blocked_compute_product_witness :
    (2 : ℕ) < 2 ^ 31 ∧ 1 < 2 ∧
    ((rust_mm_optimized sEx 2 2 2).c (cIdx 2 1 1) =
        ∑ l ∈ Finset.range 2, sEx.a (aIdx 2 1 l) * sEx.b (bIdx 2 l 1) ∧
      (rust_mm_blocked sEx 2 2 2).c (cIdx 2 1 1) =
        ∑ l ∈ Finset.range 2, sEx.a (aIdx 2 1 l) * sEx.b (bIdx 2 l 1)) :=
  ⟨by decide, by decide,
    direct_and_blocked_compute_product sEx 2 2 2 (by decide) (by decide) (by decide)
      1 1 (by decide) (by decide)⟩

/-- C2 instantiated on both sides of the threshold. -/
theorem auto_dispatches_on_512_threshold_witness :
    ((2 : ℤ) ≤ 512 ∧ (512 : ℤ) < 600) ∧
    rust_mm_auto sEx 2 2 2 = rust_mm_optimized sEx 2 2 2 ∧
    rust_mm_auto sEx 600 2 2 = rust_mm_blocked sEx 600 2 2 :=
  ⟨⟨by decide, by decide⟩,
    (auto_dispatches_on_512_threshold sEx 2 2 2).1 ⟨by decide, by decide, by decide⟩,
    (auto_dispatches_on_512_threshold sEx 600 2 2).2 (Or.inl (by decide))⟩

/-- C3 instantiated at m = k = n = 2. -/
theorem direct_blocked_agree_exact_witness :
    (0 : ℤ) ≤ 2 ∧
    (rust_mm_optimized sEx 2 2 2).c = (rust_mm_blocked sEx 2 2 2).c :=
  ⟨by decide,
    direct_blocked_agree_exact sEx 2 2 2 (by decide) (by decide) (by decide)⟩

/-- C5 instantiated at m = k = n = 2, cell (0, 1). -/
theorem direct_cell_is_sequential_fold_witness :
    (2 : ℕ) < 2 ^ 31 ∧ 0 < 2 ∧
    (rust_mm_optimized sEx 2 2 2).c (cIdx 2 0 1) =
      ((List.range 2).map (fun l => sEx.a (aIdx 2 0 l) * sEx.b (bIdx 2 l 1))).foldl
        (· + ·) 0 :=
  ⟨by decide, by decide,
    direct_cell_is_sequential_fold sEx 2 2 2 (by decide) (by decide) (by decide)
      0 1 (by decide) (by decide)⟩

/-- C6 instantiated at k = 0 (index 0) and at m = 0. -/
theorem zero_dimension_handling_witness :
    (2 : ℕ) < 2 ^ 31 ∧ (0 : ℕ) < 2 * 2 ∧
    ((rust_mm_optimized sEx 2 0 2).c 0 = 0 ∧
      (rust_mm_blocked sEx 2 0 2).c 0 = 0 ∧
      (rust_mm_auto sEx 2 0 2).c 0 = 0) ∧
    ((rust_mm_optimized sEx 0 2 2).c = sEx.c ∧
      (rust_mm_blocked sEx 0 2 2).c = sEx.c ∧
      (rust_mm_auto sEx 0 2 2).c = sEx.c) :=
  ⟨by decide, by decide,
    (zero_dimension_handling sEx 2 0 2 (by decide) (by decide) (by decide)).1
      rfl 0 (by decide),
    (zero_dimension_handling sEx 0 2 2 (by decide) (by decide) (by decide)).2
      (Or.inl rfl)⟩

/-- C7 instantiated with sentinel-filled vs zero-filled output buffers,
index 3. -/
theorem output_overwritten_independent_of_prior_witness :
    sEx.a = sEx0.a ∧ sEx.b = sEx0.b ∧ 3 < 2 * 2 ∧
    ((rust_mm_optimized sEx 2 2 2).c 3 = (rust_mm_optimized sEx0 2 2 2).c 3 ∧
      (rust_mm_blocked sEx 2 2 2).c 3 = (rust_mm_blocked sEx0 2 2 2).c 3 ∧
      (rust_mm_auto sEx 2 2 2).c 3 = (rust_mm_auto sEx0 2 2 2).c 3 ∧
      (∃! p : ℕ × ℕ, p.1 < 2 ∧ p.2 < 2 ∧ 3 = cIdx 2 p.1 p.2)) :=
  ⟨rfl, rfl, by decide,
    output_overwritten_independent_of_prior sEx sEx0 2 2 2 (by decide) (by decide)
      (by decide) rfl rfl 3 (by decide)⟩

/-- C8 instantiated with the 2×2 identity as A, index 1. -/
theorem identity_left_factor_returns_b_witness :
    (2 : ℕ) < 2 ^ 31 ∧ isIdentity sId.a 2 ∧ 1 < 2 * 2 ∧
    ((rust_mm_optimized sId 2 2 2).c 1 = sId.b 1 ∧
      (rust_mm_blocked sId 2 2 2).c 1 = sId.b 1 ∧
      (rust_mm_auto sId 2 2 2).c 1 = sId.b 1) :=
  ⟨by decide, sId_isIdentity, by decide,
    identity_left_factor_returns_b sId 2 (by decide) sId_isIdentity 1 (by decide)⟩

/-- C10 instantiated at x = 5, x = -7, and offsets inside 3×5 buffers. -/
theorem cast_and_index_bounds_witness :
    ((0 : ℤ) ≤ 5 ∧ (5 : ℤ) < 2 ^ 31 ∧ (c_int_to_usize 5 : ℤ) = 5) ∧
    (2 < 3 ∧ 4 < 5 ∧ aIdx 3 2 4 < 3 * 5) ∧
    (2 < 3 ∧ 4 < 5 ∧ bIdx 3 2 4 < 3 * 5) ∧
    (2 < 3 ∧ 4 < 5 ∧ cIdx 3 2 4 < 3 * 5) ∧
    (-2 ^ 31 ≤ (-7 : ℤ) ∧ (-7 : ℤ) < 0 ∧ 2 ^ 63 ≤ c_int_to_usize (-7)) :=
  ⟨⟨by decide, by decide, cast_and_index_bounds.1 5 (by decide) (by decide)⟩,
    ⟨by decide, by decide, cast_and_index_bounds.2.1 3 2 4 5 (by decide) (by decide)⟩,
    ⟨by decide, by decide, cast_and_index_bounds.2.2.1 3 2 4 5 (by decide) (by decide)⟩,
    ⟨by decide, by decide, cast_and_index_bounds.2.2.2.1 3 2 4 5 (by decide) (by decide)⟩,
    ⟨by decide, by decide, cast_and_index_bounds.2.2.2.2 (-7) (by decide) (by decide)⟩⟩

end MatrixProd
